import Mathlib

/-!
Verification of the hierarchy builder and query engine of the
administrative-division search program (`Administrative_division_new.c`,
`Administrative_division.c`).

The C data is modelled shallowly:

* a C string (NUL-terminated, NUL-free content) is a `List Nat` of its
  character codes; `strcmp` is byte-wise comparison, exactly as in C;
* `struct Region` becomes the structure `Region`;
* the pointer tree `struct TreeNode` becomes the rose tree `TreeNode` for
  the structurally recursive query functions (`findNodeByCode`,
  `findByNameRecursive`), which in C recurse over child pointers;
* the build phase (`buildTree`), which mutates parent/child pointers, is
  modelled as a state (`BuildState`) mapping node ids to child lists and
  parent back-references.  Record `i` of the input becomes node id `i`;
  the synthetic root becomes node id `size` (the number of records).
  Heap allocation is assumed to succeed: in the C sources the only
  failure paths of `buildTree` are `malloc`/`realloc` failures.
-/

/-- A C string: the list of character codes before the terminating NUL. -/
abbrev CStr := List Nat

/-- C `strcmp`, byte by byte; a proper prefix compares less (the shorter
string hits its NUL first). -/
def strcmp : CStr → CStr → Ordering
  | [], [] => Ordering.eq
  | [], _ :: _ => Ordering.lt
  | _ :: _, [] => Ordering.gt
  | a :: as, b :: bs =>
      if a < b then Ordering.lt
      else if b < a then Ordering.gt
      else strcmp as bs

/-- The sentinel parent code: the C string constant used in
`strcmp(regions[i].parent_code, "0") == 0`. -/
def sentinel : CStr := [48]

/-- Character codes of the synthetic root's code string
`"000000000000"` (twelve ASCII zeros). -/
def chinaCode : CStr := List.replicate 12 48

/-- C `strstr(hay, pat) != NULL` test: does `pat` occur contiguously in
`hay`?  `leadMatch pat hay` is the prefix test done at one scan position. -/
def leadMatch : CStr → CStr → Bool
  | [], _ => true
  | _ :: _, [] => false
  | a :: as, b :: bs => a == b && leadMatch as bs

/-- C `strstr(hay, pat) != NULL`: scan every suffix of `hay` for `pat`. -/
def strstrB (hay pat : CStr) : Bool :=
  if leadMatch pat hay then true
  else
    match hay with
    | [] => false
    | _ :: rest => strstrB rest pat

/-- One record of the input: the fields of C `struct Region` that the
modelled operations read.  The two optional extension fields
(`avg_house_price`, `employment_rate`) are display-only in the sources and
are read by no modelled operation, so they are not carried here. -/
structure Region where
  code : CStr
  name : CStr
  level : Int
  parent_code : CStr
  type : Int
  deriving DecidableEq, Repr

/-- The record of the synthetic root node created by `buildTree`
(`Administrative_division_new.c`, lines 221-229). -/
def chinaRegion : Region :=
  { code := chinaCode
    name := []
    level := 0
    parent_code := sentinel
    type := 0 }

/-- C `struct TreeNode` as a rose tree: node data plus the ordered child
array.  The query functions of the sources recurse structurally over this
shape (child pointers, in index order). -/
inductive TreeNode where
  | mk (data : Region) (children : List TreeNode)

/-- Node data of a rose-tree node. -/
def TreeNode.data : TreeNode → Region
  | .mk d _ => d

/-- Child list of a rose-tree node. -/
def TreeNode.children : TreeNode → List TreeNode
  | .mk _ cs => cs

mutual
/-- Depth-first pre-order listing of the nodes of a subtree: the node
itself, then the subtrees of its children in order.  This is the
traversal order of `findNodeByCode` and `findByNameRecursive`. -/
def preorderNodes : TreeNode → List TreeNode
  | .mk d cs => .mk d cs :: preorderForest cs

/-- Pre-order listing of a forest, left to right. -/
def preorderForest : List TreeNode → List TreeNode
  | [] => []
  | c :: cs => preorderNodes c ++ preorderForest cs
end

mutual
/-- C `findNodeByCode` (`Administrative_division_new.c`, lines 315-324):
depth-first pre-order search for an exact `strcmp` match on the code. -/
def findNodeByCode : TreeNode → CStr → Option TreeNode
  | .mk d cs, code =>
      if strcmp d.code code = Ordering.eq then some (.mk d cs)
      else findNodeByCodeForest cs code

/-- The child loop of `findNodeByCode`: try each child subtree in order,
return the first hit. -/
def findNodeByCodeForest : List TreeNode → CStr → Option TreeNode
  | [], _ => none
  | c :: cs, code =>
      match findNodeByCode c code with
      | some found => some found
      | none => findNodeByCodeForest cs code
end

mutual
/-- C `findByNameRecursive` (`Administrative_division_new.c`, lines
482-529) with the output made explicit: returns the list of matches it
prints, in emission order, together with the final value of the `found`
counter.  The function returns immediately when the counter has reached 5;
on a `strstr` match it emits the node and increments the counter, and if
the counter has just reached 5 it returns without visiting the children;
otherwise it recurses into the children in order, threading the counter. -/
def findByNameRecursive : TreeNode → CStr → Nat → List TreeNode × Nat
  | .mk d cs, name, found =>
      if 5 ≤ found then ([], found)
      else if strstrB d.name name then
        if 5 ≤ found + 1 then ([TreeNode.mk d cs], found + 1)
        else
          let rest := findByNameForest cs name (found + 1)
          (TreeNode.mk d cs :: rest.1, rest.2)
      else findByNameForest cs name found

/-- The child loop of `findByNameRecursive`, threading the counter. -/
def findByNameForest : List TreeNode → CStr → Nat → List TreeNode × Nat
  | [], _, found => ([], found)
  | c :: cs, name, found =>
      let first := findByNameRecursive c name found
      let rest := findByNameForest cs name first.2
      (first.1 ++ rest.1, rest.2)
end

/-- C `findByName` (`Administrative_division_new.c`, lines 538-560):
starts the recursive search with a zero counter and reports the matches
and the final counter value (the number it prints as the match count). -/
def findByName (root : TreeNode) (name : CStr) : List TreeNode × Nat :=
  findByNameRecursive root name 0

/-- C `isdigit` on the ASCII digits. -/
def isDigitB (c : Nat) : Bool := 48 ≤ c && c ≤ 57

/-- C `validateCode` (`Administrative_division.c`, lines 334-341): `-1`
when the length is not 12, `-2` when some character is not a digit, `0`
otherwise.  The C loop returns `-2` at the first non-digit; only the
returned value is observable, so the scan is folded into `List.all`. -/
def validateCode (code : CStr) : Int :=
  if code.length ≠ 12 then -1
  else if code.all isDigitB then 0 else -2

/-- Outcome of the code-lookup entry point of the refactored variant. -/
inductive FindResult where
  | invalid
  | notFound
  | found (node : TreeNode)

/-- C `findByCode` of the refactored variant (`Administrative_division.c`,
lines 303-315): reject the query unless `validateCode` accepts it, and
only then search the tree. -/
def findByCodeChecked (root : TreeNode) (code : CStr) : FindResult :=
  if validateCode code ≠ 0 then FindResult.invalid
  else
    match findNodeByCode root code with
    | some n => FindResult.found n
    | none => FindResult.notFound

/-- The mutable pointer structure that `buildTree` constructs, indexed by
node id: record `i` of the input is node `i`, the synthetic root is node
`size`.  `children x` is the contents of node `x`'s child array (insertion
order); `parent x` is its parent back-reference. -/
structure BuildState where
  children : Nat → List Nat
  parent : Nat → Option Nat

/-- The empty heap: every node fresh from `createNode` has an empty child
array and a NUL... a null parent pointer. -/
def initState : BuildState :=
  { children := fun _ => [], parent := fun _ => none }

/-- C `addChild` (`Administrative_division_new.c`, lines 131-143): append
`child` to `parent`'s child array and set `child`'s parent back-reference.
The dynamic-array doubling is invisible at this level of abstraction. -/
def addChild (parent child : Nat) (st : BuildState) : BuildState :=
  { children := fun x =>
      if x = parent then st.children parent ++ [child] else st.children x
    parent := fun x => if x = child then some parent else st.parent x }

/-- Index the input records from a starting position: `enumF k rs` pairs
record `rs[i]` with id `k + i`. -/
def enumF : Nat → List Region → List (Nat × Region)
  | _, [] => []
  | k, r :: rs => (k, r) :: enumF (k + 1) rs

/-- Insert one `(code, node)` pair into a code-sorted list, keeping it
sorted by `strcmp`. -/
def insertSorted (x : CStr × Nat) : List (CStr × Nat) → List (CStr × Nat)
  | [] => [x]
  | y :: ys =>
      if strcmp x.1 y.1 = Ordering.gt then y :: insertSorted x ys
      else x :: y :: ys

/-- The `qsort(codeToNode, size, ..., compareCodeToNode)` call, modelled
as insertion sort: any sort with the `strcmp` comparator produces a
permutation of the pairs that is sorted by code, which is all the source
relies on. -/
def sortIndex : List (CStr × Nat) → List (CStr × Nat)
  | [] => []
  | x :: xs => insertSorted x (sortIndex xs)

/-- The lookup index built by `buildTree` (lines 190-217): one
`(code, node-id)` pair per record, sorted by `strcmp` on the code. -/
def buildIndex (regions : List Region) : List (CStr × Nat) :=
  sortIndex ((enumF 0 regions).map fun p => (p.2.code, p.1))

/-- The binary-search loop of `buildTree` (lines 252-266), with C `int`
variables `left`, `right` and `mid = (left + right) / 2`.  Out-of-range
reads (impossible in the runs the program performs) are totalised with a
default pair.  The `while (left <= right)` loop is driven by explicit
fuel so that the definition stays structurally recursive (and therefore
kernel-computable): since `mid` always lies between `left` and `right`,
every iteration shrinks the interval `[left, right]` by at least one, so
any fuel exceeding the initial interval length makes this definition
agree with the unbounded C loop (the lemmas below carry the hypothesis
`(right + 1 - left).toNat < fuel` making this precise, and `bsearch`
below instantiates the fuel accordingly). -/
def bsearchGo (idx : List (CStr × Nat)) (target : CStr) :
    Nat → Int → Int → Option Nat
  | 0, _, _ => none
  | fuel + 1, left, right =>
      if left ≤ right then
        let mid := (left + right) / 2
        match strcmp (idx.getD mid.toNat ([], 0)).1 target with
        | Ordering.eq => some (idx.getD mid.toNat ([], 0)).2
        | Ordering.lt => bsearchGo idx target fuel (mid + 1) right
        | Ordering.gt => bsearchGo idx target fuel left (mid - 1)
      else none

/-- The binary search as `buildTree` invokes it: `left = 0`,
`right = size - 1`, with fuel strictly larger than the interval length. -/
def bsearch (idx : List (CStr × Nat)) (target : CStr) : Option Nat :=
  bsearchGo idx target (idx.length + 1) 0 ((idx.length : Int) - 1)

/-- Where the build attaches record `i` (with data `r`): under the
synthetic root when its parent code is the sentinel, else under the node
the binary search finds, else nowhere (orphan). -/
def parentOf (idx : List (CStr × Nat)) (size : Nat) (r : Region) :
    Option Nat :=
  if strcmp r.parent_code sentinel = Ordering.eq then some size
  else bsearch idx r.parent_code

/-- C `buildTree` (`Administrative_division_new.c`, lines 168-286),
linking phase: after creating one node per record plus the root and
sorting the code index, walk the records in input order and attach each
to its resolved parent via `addChild`; a record whose parent code is
neither the sentinel nor found by the binary search is left unattached. -/
def buildTree (regions : List Region) : BuildState :=
  let n := regions.length
  let codeToNode := buildIndex regions
  (enumF 0 regions).foldl
    (fun st p =>
      match parentOf codeToNode n p.2 with
      | some par => addChild par p.1 st
      | none => st)
    initState

/-- The sequence of `addChild` calls (`(parent, child)` pairs, in call
order) that `buildTree` performs on the given input. -/
def buildCalls (regions : List Region) : List (Nat × Nat) :=
  (enumF 0 regions).filterMap fun p =>
    (parentOf (buildIndex regions) regions.length p.2).map fun par =>
      (par, p.1)

/-- Replay a sequence of `addChild` calls on a state. -/
def applyCalls (calls : List (Nat × Nat)) (st : BuildState) : BuildState :=
  calls.foldl (fun st c => addChild c.1 c.2 st) st

/-- Reachability from node `x` by following child links, the sense in
which the spec's tree "contains" a node. -/
inductive Reach (st : BuildState) : Nat → Nat → Prop
  | refl (x : Nat) : Reach st x x
  | step {x c y : Nat} : c ∈ st.children x → Reach st c y → Reach st x y

/-- `RootPath st n x l`: node `x` is reached from the synthetic root
(node `n`) by child links, and `l` is the list of its proper ancestors in
child-to-root order (so `l = []` exactly for the root itself). -/
inductive RootPath (st : BuildState) (n : Nat) : Nat → List Nat → Prop
  | base : RootPath st n n []
  | step {x c : Nat} {l : List Nat} :
      RootPath st n x l → c ∈ st.children x → RootPath st n c (x :: l)

/-- The ancestor-printing loop of the latest variant's `findByCode`
(`Administrative_division_new.c`, lines 350-359): starting from the found
node, repeatedly move to the parent and emit it, until the current node
has a null parent.  The `while` loop is given explicit fuel; on the trees
the build produces, any fuel beyond the node's depth gives the loop's
exact output. -/
def ancChain (st : BuildState) : Nat → Nat → List Nat
  | 0, _ => []
  | fuel + 1, x =>
      match st.parent x with
      | none => []
      | some p => p :: ancChain st fuel p

/-- The hierarchy-printing loop of `displayNodeInfo`
(`Administrative_division.c`, lines 383-394): emit the current node, then
move to its parent, while the current node has a parent.  Same fuel
convention as `ancChain`. -/
def displayChain (st : BuildState) : Nat → Nat → List Nat
  | 0, _ => []
  | fuel + 1, x =>
      match st.parent x with
      | none => []
      | some p => x :: displayChain st fuel p

/-- Parent resolution of the earlier variant's `buildTree`
(`Administrative_division.c`, lines 698-714): scan all records in order
and take the first whose code equals the sought parent code. -/
def linearResolve (regions : List Region) (pc : CStr) : Option Nat :=
  ((enumF 0 regions).find? fun p =>
      strcmp pc p.2.code == Ordering.eq).map fun p => p.1

/-- Parent resolution of the latest variant: binary search over the
code-sorted index. -/
def indexResolve (regions : List Region) (pc : CStr) : Option Nat :=
  bsearch (buildIndex regions) pc

/-- `strcmp` returns `eq` exactly on equal strings. -/
theorem strcmp_eq_iff : ∀ {a b : CStr}, strcmp a b = Ordering.eq ↔ a = b
  | [], [] => by simp [strcmp]
  | [], _ :: _ => by simp [strcmp]
  | _ :: _, [] => by simp [strcmp]
  | a :: as, b :: bs => by
      simp only [strcmp]
      split
      · simp only [List.cons.injEq]
        constructor
        · intro h; cases h
        · rintro ⟨h, -⟩; omega
      · split
        · simp only [List.cons.injEq]
          constructor
          · intro h; cases h
          · rintro ⟨h, -⟩; omega
        · have hab : a = b := by omega
          subst hab
          simpa [List.cons.injEq] using strcmp_eq_iff (a := as) (b := bs)

/-- `strcmp` on equal arguments. -/
theorem strcmp_self (a : CStr) : strcmp a a = Ordering.eq :=
  strcmp_eq_iff.mpr rfl

/-- Swapping the arguments of `strcmp` swaps the ordering. -/
theorem strcmp_swap : ∀ (a b : CStr), strcmp b a = (strcmp a b).swap
  | [], [] => rfl
  | [], _ :: _ => rfl
  | _ :: _, [] => rfl
  | a :: as, b :: bs => by
      rcases Nat.lt_trichotomy a b with h | h | h
      · have h2 : ¬ b < a := by omega
        simp only [strcmp, if_pos h, if_neg h2]
        rfl
      · subst h
        have h2 : ¬ a < a := by omega
        simp only [strcmp, if_neg h2]
        exact strcmp_swap as bs
      · have h2 : ¬ a < b := by omega
        simp only [strcmp, if_pos h, if_neg h2]
        rfl

/-- `strcmp a b = gt` exactly when `strcmp b a = lt`. -/
theorem strcmp_gt_iff {a b : CStr} :
    strcmp a b = Ordering.gt ↔ strcmp b a = Ordering.lt := by
  rw [strcmp_swap a b]
  cases strcmp a b <;> simp [Ordering.swap]

/-- `strcmp` is transitive on `lt`. -/
theorem strcmp_lt_trans : ∀ {a b c : CStr}, strcmp a b = Ordering.lt →
    strcmp b c = Ordering.lt → strcmp a c = Ordering.lt
  | [], _, _ :: _, _, _ => rfl
  | [], b, [], _, hbc => by cases b <;> simp [strcmp] at hbc
  | _ :: _, [], _, hab, _ => by simp [strcmp] at hab
  | _ :: _, _ :: _, [], _, hbc => by simp [strcmp] at hbc
  | a :: as, b :: bs, c :: cs, hab, hbc => by
      simp only [strcmp] at hab hbc ⊢
      rcases Nat.lt_trichotomy a b with h1 | h1 | h1
      · rcases Nat.lt_trichotomy b c with h2 | h2 | h2
        · rw [if_pos (by omega)]
        · subst h2; rw [if_pos h1]
        · rw [if_neg (by omega), if_pos h2] at hbc; cases hbc
      · subst h1
        rcases Nat.lt_trichotomy a c with h2 | h2 | h2
        · rw [if_pos h2]
        · subst h2
          rw [if_neg (by omega), if_neg (by omega)] at hab hbc ⊢
          exact strcmp_lt_trans hab hbc
        · rw [if_neg (by omega), if_pos h2] at hbc; cases hbc
      · rw [if_neg (by omega), if_pos h1] at hab; cases hab

/-- Key order used for the sorted code index: `a` is at most `b` when the
comparator does not say greater. -/
def leKey (a b : CStr × Nat) : Prop := strcmp a.1 b.1 ≠ Ordering.gt

/-- Strict key order: the comparator says less. -/
def ltKey (a b : CStr × Nat) : Prop := strcmp a.1 b.1 = Ordering.lt

instance : DecidableRel leKey := fun a b => by
  unfold leKey; infer_instance

/-- `leKey` is transitive. -/
theorem leKey_trans {a b c : CStr × Nat} (hab : leKey a b)
    (hbc : leKey b c) : leKey a c := by
  unfold leKey at hab hbc ⊢
  cases h1 : strcmp a.1 b.1 with
  | lt =>
    cases h2 : strcmp b.1 c.1 with
    | lt => rw [strcmp_lt_trans h1 h2]; intro hx; cases hx
    | eq =>
      rw [strcmp_eq_iff] at h2
      rw [← h2, h1]
      intro hx; cases hx
    | gt => exact absurd h2 hbc
  | eq =>
    rw [strcmp_eq_iff] at h1
    rw [h1]
    exact hbc
  | gt => exact absurd h1 hab

/-- `leKey` is total. -/
theorem leKey_total : ∀ (a b : CStr × Nat), leKey a b ∨ leKey b a := by
  intro a b
  unfold leKey
  cases h : strcmp a.1 b.1 with
  | lt => left; intro hx; cases hx
  | eq => left; intro hx; cases hx
  | gt =>
    right
    rw [strcmp_gt_iff.mp h]
    intro hx; cases hx

/-- Inserting into a list permutes consing onto it. -/
theorem insertSorted_perm (x : CStr × Nat) :
    ∀ (l : List (CStr × Nat)), (insertSorted x l).Perm (x :: l)
  | [] => List.Perm.refl _
  | y :: ys => by
      rw [insertSorted]
      split
      · exact ((insertSorted_perm x ys).cons y).trans (List.Perm.swap x y ys)
      · exact List.Perm.refl _

/-- The modelled sort permutes its input. -/
theorem sortIndex_perm : ∀ (l : List (CStr × Nat)), (sortIndex l).Perm l
  | [] => List.Perm.refl _
  | x :: xs => (insertSorted_perm x (sortIndex xs)).trans
      ((sortIndex_perm xs).cons x)

/-- Inserting into a `leKey`-sorted list keeps it sorted. -/
theorem insertSorted_pairwise (x : CStr × Nat) :
    ∀ {l : List (CStr × Nat)}, l.Pairwise leKey →
    (insertSorted x l).Pairwise leKey
  | [], _ => by simp [insertSorted]
  | y :: ys, h => by
      rw [insertSorted]
      rw [List.pairwise_cons] at h
      split
      case isTrue hgt =>
        rw [List.pairwise_cons]
        refine ⟨?_, insertSorted_pairwise x h.2⟩
        intro z hz
        rcases List.mem_cons.mp ((insertSorted_perm x ys).mem_iff.mp hz) with
          rfl | hz'
        · unfold leKey
          rw [strcmp_gt_iff.mp hgt]
          intro hx; cases hx
        · exact h.1 z hz'
      case isFalse hle =>
        rw [List.pairwise_cons]
        refine ⟨?_, List.pairwise_cons.mpr h⟩
        intro z hz
        rcases List.mem_cons.mp hz with rfl | hz'
        · exact hle
        · exact leKey_trans hle (h.1 z hz')

/-- The modelled sort produces a `leKey`-sorted list. -/
theorem sortIndex_pairwise : ∀ (l : List (CStr × Nat)),
    (sortIndex l).Pairwise leKey
  | [] => List.Pairwise.nil
  | x :: xs => insertSorted_pairwise x (sortIndex_pairwise xs)

/-- With pairwise-distinct codes the sorted index is strictly sorted. -/
theorem sortIndex_pairwise_lt (l : List (CStr × Nat))
    (hnd : (l.map Prod.fst).Nodup) : (sortIndex l).Pairwise ltKey := by
  have hperm : ((sortIndex l).map Prod.fst).Perm (l.map Prod.fst) :=
    (sortIndex_perm l).map Prod.fst
  have hnd2 : ((sortIndex l).map Prod.fst).Pairwise (· ≠ ·) :=
    hperm.nodup_iff.mpr hnd
  have hne : (sortIndex l).Pairwise fun a b => a.1 ≠ b.1 :=
    List.pairwise_map.mp hnd2
  have hle := sortIndex_pairwise l
  refine ((hle.and hne).imp ?_)
  intro a b hab
  unfold ltKey
  cases h : strcmp a.1 b.1 with
  | lt => rfl
  | eq => exact absurd (strcmp_eq_iff.mp h) hab.2
  | gt => exact absurd h hab.1

/-- The data components of the indexed records are the records. -/
theorem enumF_map_snd : ∀ (k : Nat) (rs : List Region),
    (enumF k rs).map Prod.snd = rs
  | _, [] => rfl
  | k, r :: rs => by simp [enumF, enumF_map_snd (k + 1) rs]

/-- The id components of the indexed records are consecutive. -/
theorem enumF_map_fst : ∀ (k : Nat) (rs : List Region),
    (enumF k rs).map Prod.fst = List.range' k rs.length
  | _, [] => rfl
  | k, r :: rs => by simp [enumF, List.range', enumF_map_fst (k + 1) rs]

/-- Membership in the indexed record list. -/
theorem enumF_mem : ∀ (k : Nat) (rs : List Region) (p : Nat × Region),
    p ∈ enumF k rs ↔ ∃ j, ∃ _ : j < rs.length, p = (k + j, rs[j])
  | _, [], p => by simp [enumF]
  | k, r :: rs, p => by
      simp only [enumF, List.mem_cons, enumF_mem (k + 1) rs p]
      constructor
      · rintro (rfl | ⟨j, hj, rfl⟩)
        · exact ⟨0, by simp, by simp⟩
        · refine ⟨j + 1, by simpa using hj, ?_⟩
          simp [Prod.ext_iff]
          omega
      · rintro ⟨j, hj, rfl⟩
        cases j with
        | zero => left; simp
        | succ j =>
            right
            refine ⟨j, by simpa using hj, ?_⟩
            simp [Prod.ext_iff]
            omega

/-- The midpoint of a nonempty interval lies in the interval (with C
`int` division, both bounds being nonnegative in every reachable call). -/
theorem midBounds {left right : Int} (h : left ≤ right) :
    left ≤ (left + right) / 2 ∧ (left + right) / 2 ≤ right := by omega

/-- Soundness of the binary-search loop: a returned node id comes with
its key equal to the target, as a pair of the index. -/
theorem bsearchGo_some_mem (idx : List (CStr × Nat)) (target : CStr) :
    ∀ (fuel : Nat) (left right : Int), 0 ≤ left →
      right < (idx.length : Int) →
      ∀ v, bsearchGo idx target fuel left right = some v →
      (target, v) ∈ idx
  | 0, left, right => by
      intro _ _ v h
      cases h
  | fuel + 1, left, right => by
      intro hl hr v h
      simp only [bsearchGo] at h
      split at h
      case isTrue hlr =>
        have hmb := midBounds hlr
        split at h
        case h_1 heq =>
          have hmn : ((left + right) / 2).toNat < idx.length := by omega
          rw [List.getD_eq_getElem idx ([], 0) hmn] at heq h
          cases h
          have : idx[((left + right) / 2).toNat].1 = target :=
            strcmp_eq_iff.mp heq
          have hmem := idx.getElem_mem hmn
          rw [← this]
          exact hmem
        case h_2 _ =>
          exact bsearchGo_some_mem idx target fuel _ right (by omega) hr v h
        case h_3 _ =>
          exact bsearchGo_some_mem idx target fuel left _ hl (by omega) v h
      case isFalse =>
        cases h

/-- Completeness of the binary-search loop on a strictly sorted index:
if the target key sits at position `p` inside the search interval and the
fuel dominates the interval length, the loop returns position `p`'s node
id. -/
theorem bsearchGo_found (idx : List (CStr × Nat)) (target : CStr)
    (hs : idx.Pairwise ltKey) :
    ∀ (fuel : Nat) (left right : Int) (p : Nat) (hp : p < idx.length),
      0 ≤ left → left ≤ (p : Int) → (p : Int) ≤ right →
      right < (idx.length : Int) →
      (right + 1 - left).toNat < fuel →
      idx[p].1 = target →
      bsearchGo idx target fuel left right = some idx[p].2
  | 0, left, right, p, hp => by
      intro _ _ _ _ hfuel _
      omega
  | fuel + 1, left, right, p, hp => by
      intro hl hlp hpr hr hfuel htarget
      have hlr : left ≤ right := le_trans hlp hpr
      have hmb := midBounds hlr
      have hmn : ((left + right) / 2).toNat < idx.length := by omega
      have hsorted := List.pairwise_iff_getElem.mp hs
      cases hcmp : strcmp idx[((left + right) / 2).toNat].1 target with
      | eq =>
        have hpm : ((left + right) / 2).toNat = p := by
          have hkey : idx[((left + right) / 2).toNat].1 = target :=
            strcmp_eq_iff.mp hcmp
          by_contra hne
          rcases Nat.lt_or_ge ((left + right) / 2).toNat p with hlt | hge
          · have := hsorted _ _ hmn hp hlt
            unfold ltKey at this
            rw [hkey, htarget, strcmp_self] at this
            cases this
          · have hgt : p < ((left + right) / 2).toNat := by omega
            have := hsorted _ _ hp hmn hgt
            unfold ltKey at this
            rw [hkey, htarget, strcmp_self] at this
            cases this
        simp only [bsearchGo, if_pos hlr,
          List.getD_eq_getElem idx ([], 0) hmn, hcmp]
        simp only [hpm]
      | lt =>
        have hmidp : ((left + right) / 2).toNat < p := by
          by_contra hge
          rcases Nat.eq_or_lt_of_le (Nat.le_of_not_lt hge) with heq | hlt
          · subst heq
            rw [htarget, strcmp_self] at hcmp
            exact Ordering.noConfusion hcmp
          · have := hsorted _ _ hp hmn hlt
            unfold ltKey at this
            rw [htarget] at this
            have := strcmp_lt_trans hcmp this
            rw [strcmp_self] at this
            cases this
        simp only [bsearchGo, if_pos hlr,
          List.getD_eq_getElem idx ([], 0) hmn, hcmp]
        exact bsearchGo_found idx target hs fuel _ right p hp (by omega)
          (by omega) hpr hr (by omega) htarget
      | gt =>
        have hmidp : p < ((left + right) / 2).toNat := by
          by_contra hge
          rcases Nat.eq_or_lt_of_le (Nat.le_of_not_lt hge) with heq | hlt
          · subst heq
            rw [htarget, strcmp_self] at hcmp
            exact Ordering.noConfusion hcmp
          · have := hsorted _ _ hmn hp hlt
            unfold ltKey at this
            rw [htarget] at this
            rw [strcmp_gt_iff] at hcmp
            have := strcmp_lt_trans this hcmp
            rw [strcmp_self] at this
            cases this
        simp only [bsearchGo, if_pos hlr,
          List.getD_eq_getElem idx ([], 0) hmn, hcmp]
        exact bsearchGo_found idx target hs fuel left _ p hp hl hlp
          (by omega) (by omega) (by omega) htarget

/-- A hit of `bsearch` is a pair of the index with the target as key. -/
theorem bsearch_mem (idx : List (CStr × Nat)) (target : CStr) (v : Nat)
    (h : bsearch idx target = some v) : (target, v) ∈ idx :=
  bsearchGo_some_mem idx target (idx.length + 1) 0 ((idx.length : Int) - 1)
    (le_refl 0) (by omega) v h

/-- On a strictly sorted index, `bsearch` finds the node id stored with
the target key. -/
theorem bsearch_found (idx : List (CStr × Nat)) (target : CStr)
    (hs : idx.Pairwise ltKey) (p : Nat) (hp : p < idx.length)
    (ht : idx[p].1 = target) : bsearch idx target = some idx[p].2 :=
  bsearchGo_found idx target hs (idx.length + 1) 0 ((idx.length : Int) - 1)
    p hp (le_refl 0) (by omega) (by omega) (by omega) (by omega) ht

/-- The keys of the unsorted index pairs are the record codes, in input
order. -/
theorem pairsKeys (regions : List Region) :
    ((enumF 0 regions).map fun p => (p.2.code, p.1)).map Prod.fst =
      regions.map Region.code := by
  rw [List.map_map]
  rw [show (Prod.fst ∘ fun p : Nat × Region => (p.2.code, p.1)) =
    (Region.code ∘ Prod.snd) from rfl]
  rw [← List.map_map, enumF_map_snd]

/-- With pairwise-distinct record codes the built index is strictly
sorted. -/
theorem buildIndex_pairwise_lt (regions : List Region)
    (hnd : (regions.map Region.code).Nodup) :
    (buildIndex regions).Pairwise ltKey := by
  unfold buildIndex
  refine sortIndex_pairwise_lt _ ?_
  rw [pairsKeys]
  exact hnd

/-- Membership in the built index. -/
theorem buildIndex_mem (regions : List Region) (c : CStr) (v : Nat) :
    (c, v) ∈ buildIndex regions ↔
      ∃ _ : v < regions.length, regions[v].code = c := by
  unfold buildIndex
  rw [(sortIndex_perm _).mem_iff, List.mem_map]
  constructor
  · rintro ⟨a, ha, hmap⟩
    rcases (enumF_mem 0 regions a).mp ha with ⟨j, hj, rfl⟩
    have h1 : regions[j].code = c := congrArg Prod.fst hmap
    have h2 : 0 + j = v := congrArg Prod.snd hmap
    refine ⟨by omega, ?_⟩
    have : j = v := by omega
    subst this
    exact h1
  · rintro ⟨hv, hcode⟩
    refine ⟨(0 + v, regions[v]), ?_, ?_⟩
    · exact (enumF_mem 0 regions _).mpr ⟨v, hv, rfl⟩
    · simp [hcode]

/-- With pairwise-distinct codes, `bsearch` over the built index finds
the (unique) record with the sought code. -/
theorem bsearch_buildIndex_eq (regions : List Region)
    (hnd : (regions.map Region.code).Nodup) (target : CStr) (j : Nat)
    (hj : j < regions.length) (hcode : regions[j].code = target) :
    bsearch (buildIndex regions) target = some j := by
  have hmem : (target, j) ∈ buildIndex regions :=
    (buildIndex_mem regions target j).mpr ⟨hj, hcode⟩
  rcases List.mem_iff_getElem.mp hmem with ⟨p, hp, hgp⟩
  have := bsearch_found (buildIndex regions) target
    (buildIndex_pairwise_lt regions hnd) p hp (by rw [hgp])
  rw [this, hgp]

/-- When no record carries the sought code, `bsearch` over the built
index fails (no distinctness needed). -/
theorem bsearch_buildIndex_none (regions : List Region) (target : CStr)
    (habs : ∀ j, ∀ _ : j < regions.length, regions[j].code ≠ target) :
    bsearch (buildIndex regions) target = none := by
  cases h : bsearch (buildIndex regions) target with
  | none => rfl
  | some v =>
    have hmem := bsearch_mem _ target v h
    rcases (buildIndex_mem regions target v).mp hmem with ⟨hv, hcode⟩
    exact absurd hcode (habs v hv)

/-- Replaying a single call prepends nothing and appends one child. -/
theorem applyCalls_cons (c : Nat × Nat) (calls : List (Nat × Nat))
    (st : BuildState) :
    applyCalls (c :: calls) st = applyCalls calls (addChild c.1 c.2 st) :=
  rfl

/-- The child arrays after a replay: whatever was there before, followed
by the replayed children of that node, in call order. -/
theorem applyCalls_children :
    ∀ (calls : List (Nat × Nat)) (st : BuildState) (x : Nat),
    (applyCalls calls st).children x =
      st.children x ++ (calls.filter fun c => c.1 == x).map Prod.snd
  | [], st, x => by simp [applyCalls]
  | c :: calls, st, x => by
      rw [applyCalls_cons, applyCalls_children calls _ x, List.filter_cons]
      by_cases hx : c.1 = x
      · subst hx
        simp [addChild]
      · have hbx : (c.1 == x) = false := by simp [hx]
        simp [addChild, hbx, Ne.symm hx]

/-- The parent map after a replay whose children are pairwise distinct:
a node's parent is its unique recorded assignment, or whatever it was
before if it is never a replayed child. -/
theorem applyCalls_parent :
    ∀ (calls : List (Nat × Nat)), ((calls.map Prod.snd).Nodup) →
    ∀ (st : BuildState) (y p : Nat),
    ((applyCalls calls st).parent y = some p ↔
      (p, y) ∈ calls ∨
        (st.parent y = some p ∧ y ∉ calls.map Prod.snd))
  | [], _ => by simp [applyCalls]
  | c :: calls, hnd => by
      intro st y p
      rw [List.map_cons, List.nodup_cons] at hnd
      rw [applyCalls_cons, applyCalls_parent calls hnd.2 _ y p]
      by_cases hy : y = c.2
      · subst hy
        have h1 : (p, c.2) ∉ calls := fun hmem =>
          hnd.1 (List.mem_map.mpr ⟨(p, c.2), hmem, rfl⟩)
        have h2 : (addChild c.1 c.2 st).parent c.2 = some c.1 := by
          simp [addChild]
        rw [h2]
        constructor
        · rintro (h | ⟨hc, -⟩)
          · exact absurd h h1
          · left
            have hp : p = c.1 := by
              injection hc with h'
              omega
            subst hp
            exact List.mem_cons_self c calls
        · rintro (hin | ⟨-, hnin⟩)
          · rcases List.mem_cons.mp hin with hc | h
            · right
              have hp : p = c.1 := congrArg Prod.fst hc
              refine ⟨by rw [hp], hnd.1⟩
            · exact absurd h h1
          · exact absurd (List.mem_cons_self c.2 (calls.map Prod.snd)) hnin
      · have h2 : (addChild c.1 c.2 st).parent y = st.parent y := by
          simp [addChild, hy]
        rw [h2]
        constructor
        · rintro (h | ⟨hp, hnin⟩)
          · exact Or.inl (List.mem_cons_of_mem c h)
          · refine Or.inr ⟨hp, fun hmem => ?_⟩
            rcases List.mem_cons.mp hmem with hc | h
            · exact hy hc
            · exact hnin h
        · rintro (hin | ⟨hp, hnin⟩)
          · rcases List.mem_cons.mp hin with hc | h
            · exact absurd (congrArg Prod.snd hc) hy
            · exact Or.inl h
          · exact Or.inr ⟨hp, fun hmem =>
              hnin (List.mem_cons_of_mem c.2 hmem)⟩

/-- The linking fold of `buildTree` is the replay of its call sequence. -/
theorem foldLink_eq_applyCalls (idx : List (CStr × Nat)) (n : Nat) :
    ∀ (L : List (Nat × Region)) (st : BuildState),
    L.foldl
      (fun st p =>
        match parentOf idx n p.2 with
        | some par => addChild par p.1 st
        | none => st) st =
    applyCalls
      (L.filterMap fun p => (parentOf idx n p.2).map fun par => (par, p.1))
      st
  | [], st => rfl
  | p :: L, st => by
      rw [List.foldl_cons, List.filterMap_cons]
      cases h : parentOf idx n p.2 with
      | none =>
          simp only [h, Option.map_none']
          exact foldLink_eq_applyCalls idx n L st
      | some par =>
          simp only [h, Option.map_some']
          rw [applyCalls_cons]
          exact foldLink_eq_applyCalls idx n L (addChild par p.1 st)

/-- `buildTree` is the replay of its recorded call sequence on the empty
heap. -/
theorem buildTree_eq (regions : List Region) :
    buildTree regions = applyCalls (buildCalls regions) initState :=
  foldLink_eq_applyCalls (buildIndex regions) regions.length
    (enumF 0 regions) initState

/-- Membership in the call sequence: record `c` is attached to node `p`
exactly when the build resolves its parent to `p`. -/
theorem buildCalls_mem (regions : List Region) (p c : Nat) :
    (p, c) ∈ buildCalls regions ↔
      ∃ _ : c < regions.length,
        parentOf (buildIndex regions) regions.length regions[c] = some p := by
  unfold buildCalls
  rw [List.mem_filterMap]
  constructor
  · rintro ⟨a, ha, hmap⟩
    rcases (enumF_mem 0 regions a).mp ha with ⟨j, hj, rfl⟩
    rcases Option.map_eq_some'.mp hmap with ⟨par, hpar, heq⟩
    have h1 : par = p := congrArg Prod.fst heq
    have h2 : 0 + j = c := congrArg Prod.snd heq
    have hj' : j = c := by omega
    subst hj'
    subst h1
    exact ⟨by omega, hpar⟩
  · rintro ⟨hc, hpar⟩
    refine ⟨(0 + c, regions[c]), (enumF_mem 0 regions _).mpr ⟨c, hc, rfl⟩, ?_⟩
    rw [hpar]
    simp

/-- The children recorded by the call sequence are record indices. -/
theorem buildCalls_child_lt (regions : List Region) {x y : Nat}
    (h : (x, y) ∈ buildCalls regions) : y < regions.length := by
  rcases (buildCalls_mem regions x y).mp h with ⟨hy, -⟩
  exact hy

/-- No record index repeats among the children of the call sequence:
every `addChild` call of a build has a distinct child argument. -/
theorem buildCalls_snd_nodup (regions : List Region) :
    ((buildCalls regions).map Prod.snd).Nodup := by
  have hsub : ((buildCalls regions).map Prod.snd).Sublist
      ((enumF 0 regions).map Prod.fst) := by
    unfold buildCalls
    induction enumF 0 regions with
    | nil => simp
    | cons p L ih =>
      rw [List.filterMap_cons]
      cases h : parentOf (buildIndex regions) regions.length p.2 with
      | none =>
          simp only [h, Option.map_none', List.map_cons]
          exact ih.cons p.1
      | some par =>
          simp only [h, Option.map_some', List.map_cons]
          exact ih.cons₂ p.1
  refine hsub.nodup ?_
  rw [enumF_map_fst]
  exact List.nodup_range' _ _

/-- Child membership in the built tree is call membership. -/
theorem buildTree_children_mem (regions : List Region) (x y : Nat) :
    y ∈ (buildTree regions).children x ↔ (x, y) ∈ buildCalls regions := by
  rw [buildTree_eq, applyCalls_children]
  simp only [initState, List.nil_append, List.mem_map, List.mem_filter]
  constructor
  · rintro ⟨cl, ⟨hmem, hfst⟩, rfl⟩
    have : cl.1 = x := by simpa using hfst
    rw [← this]
    exact hmem
  · intro h
    exact ⟨(x, y), ⟨h, by simp⟩, rfl⟩

/-- The parent map of the built tree is exactly the call sequence. -/
theorem buildTree_parent_some (regions : List Region) (y p : Nat) :
    (buildTree regions).parent y = some p ↔ (p, y) ∈ buildCalls regions := by
  rw [buildTree_eq, applyCalls_parent _ (buildCalls_snd_nodup regions)]
  simp [initState]

/-- The synthetic root keeps its null parent pointer. -/
theorem buildTree_parent_root (regions : List Region) :
    (buildTree regions).parent regions.length = none := by
  cases h : (buildTree regions).parent regions.length with
  | none => rfl
  | some p =>
    have := buildCalls_child_lt regions
      ((buildTree_parent_some regions _ p).mp h)
    omega

/-- A record whose parent code is the sentinel is attached under the
synthetic root. -/
theorem parentOf_sentinel (idx : List (CStr × Nat)) (n : Nat) (r : Region)
    (h : r.parent_code = sentinel) : parentOf idx n r = some n := by
  unfold parentOf
  rw [if_pos (strcmp_eq_iff.mpr h)]

/-- A record whose parent code is not the sentinel is resolved by the
binary search. -/
theorem parentOf_not_sentinel (idx : List (CStr × Nat)) (n : Nat)
    (r : Region) (h : r.parent_code ≠ sentinel) :
    parentOf idx n r = bsearch idx r.parent_code := by
  unfold parentOf
  rw [if_neg (fun hc => h (strcmp_eq_iff.mp hc))]

/-- Reachability extends along one more child link. -/
theorem Reach.snoc {st : BuildState} {a b c : Nat} (h : Reach st a b)
    (hc : c ∈ st.children b) : Reach st a c := by
  induction h with
  | refl x => exact Reach.step hc (Reach.refl c)
  | step hx _ ih => exact Reach.step hx (ih hc)

/-- A node reachable from `a` is `a` itself or sits in some child array. -/
theorem reach_cases {st : BuildState} {a b : Nat} (h : Reach st a b) :
    b = a ∨ ∃ x, b ∈ st.children x := by
  induction h with
  | refl x => exact Or.inl rfl
  | step hx hr ih =>
      rcases ih with rfl | hex
      · exact Or.inr ⟨_, hx⟩
      · exact Or.inr hex

/-- A root path witnesses reachability. -/
theorem RootPath.reach {st : BuildState} {n x : Nat} {l : List Nat}
    (h : RootPath st n x l) : Reach st n x := by
  induction h with
  | base => exact Reach.refl n
  | step _ hc ih => exact ih.snoc hc

/-- The ancestor list of a root path is empty only at the root, and
otherwise ends with the root. -/
theorem rootPath_last {st : BuildState} {n x : Nat} {l : List Nat}
    (h : RootPath st n x l) : (l = [] ∧ x = n) ∨ l.getLast? = some n := by
  induction h with
  | base => exact Or.inl ⟨rfl, rfl⟩
  | @step x' c' l' hp hc ih =>
      rcases ih with ⟨rfl, rfl⟩ | hlast
      · exact Or.inr rfl
      · right
        cases l' with
        | nil => simp at hlast
        | cons y l'' =>
            rw [List.getLast?_cons_cons]
            exact hlast

/-- On a built tree, the two ancestor-printing loops follow the parent
back-references up the unique root path: from any node with proper
ancestors `l` (child-to-root order), the latest variant's loop prints
exactly `l` (ending at the synthetic root), and `displayNodeInfo`'s loop
prints the node followed by its ancestors short of the root. -/
theorem rootPath_chains (regions : List Region) :
    ∀ {x : Nat} {l : List Nat},
      RootPath (buildTree regions) regions.length x l →
      ∀ fuel : Nat, l.length < fuel →
      ancChain (buildTree regions) fuel x = l ∧
        displayChain (buildTree regions) fuel x = (x :: l).dropLast := by
  intro x l h
  induction h with
  | base =>
      intro fuel hf
      cases fuel with
      | zero => omega
      | succ f =>
          rw [ancChain, displayChain, buildTree_parent_root]
          exact ⟨rfl, by simp⟩
  | @step x' c l' hp hc ih =>
      intro fuel hf
      cases fuel with
      | zero => omega
      | succ f =>
          have hparent : (buildTree regions).parent c = some x' :=
            (buildTree_parent_some regions c x').mpr
              ((buildTree_children_mem regions x' c).mp hc)
          have hlen : l'.length < f := by
            simp only [List.length_cons] at hf
            omega
          have hrec := ih f hlen
          rw [ancChain, displayChain, hparent]
          constructor
          · show x' :: ancChain (buildTree regions) f x' = x' :: l'
            rw [hrec.1]
          · show c :: displayChain (buildTree regions) f x' =
              (c :: x' :: l').dropLast
            rw [hrec.2]
            rfl

/-- All pre-order nodes of a subtree whose name contains the pattern. -/
def nameMatches (t : TreeNode) (name : CStr) : List TreeNode :=
  (preorderNodes t).filter fun nd => strstrB nd.data.name name

/-- All pre-order nodes of a forest whose name contains the pattern. -/
def nameMatchesForest (cs : List TreeNode) (name : CStr) : List TreeNode :=
  (preorderForest cs).filter fun nd => strstrB nd.data.name name

/-- Unfolding of `nameMatches` at a node. -/
theorem nameMatches_node (d : Region) (cs : List TreeNode) (name : CStr) :
    nameMatches (.mk d cs) name =
      if strstrB d.name name then
        TreeNode.mk d cs :: nameMatchesForest cs name
      else nameMatchesForest cs name := by
  unfold nameMatches nameMatchesForest
  rw [preorderNodes, List.filter_cons]
  rfl

/-- Unfolding of `nameMatchesForest` at a cons. -/
theorem nameMatchesForest_cons (c : TreeNode) (cs : List TreeNode)
    (name : CStr) :
    nameMatchesForest (c :: cs) name =
      nameMatches c name ++ nameMatchesForest cs name := by
  unfold nameMatches nameMatchesForest
  rw [preorderForest, List.filter_append]

mutual
/-- The name search started with counter `found ≤ 5` emits exactly the
first `5 - found` pre-order matches of the subtree and ends with the
counter at `min (found + all matches) 5`: the emission is in pre-order,
every emitted node matches, at most `5 - found` nodes are emitted, and
the counter stops growing at the cap because traversal stops there. -/
theorem findByNameRecursive_spec :
    ∀ (t : TreeNode) (name : CStr) (found : Nat), found ≤ 5 →
    findByNameRecursive t name found =
      ((nameMatches t name).take (5 - found),
        min (found + (nameMatches t name).length) 5)
  | .mk d cs, name, found => by
      intro hf
      rw [findByNameRecursive, nameMatches_node]
      by_cases h5 : 5 ≤ found
      · have hf5 : found = 5 := by omega
        subst hf5
        rw [if_pos (by omega)]
        by_cases hm : strstrB d.name name
        · rw [if_pos hm]
          simp
        · rw [if_neg hm]
          simp
      · rw [if_neg h5]
        by_cases hm : strstrB d.name name
        · rw [if_pos hm, if_pos hm]
          by_cases h45 : 5 ≤ found + 1
          · rw [if_pos h45]
            have hf4 : found = 4 := by omega
            subst hf4
            simp
            omega
          · rw [if_neg h45]
            have hrec := findByNameForest_spec cs name (found + 1)
              (by omega)
            rw [hrec]
            simp only [Prod.mk.injEq]
            constructor
            · show TreeNode.mk d cs ::
                  (nameMatchesForest cs name).take (5 - (found + 1)) =
                (TreeNode.mk d cs :: nameMatchesForest cs name).take
                  (5 - found)
              have h51 : 5 - found = (5 - (found + 1)) + 1 := by omega
              rw [h51, List.take_succ_cons]
            · show min (found + 1 + (nameMatchesForest cs name).length) 5 =
                min (found + (TreeNode.mk d cs ::
                  nameMatchesForest cs name).length) 5
              rw [List.length_cons]
              omega
        · rw [if_neg hm, if_neg hm]
          exact findByNameForest_spec cs name found hf

/-- Forest version of `findByNameRecursive_spec`, threading the counter
through the children in order. -/
theorem findByNameForest_spec :
    ∀ (cs : List TreeNode) (name : CStr) (found : Nat), found ≤ 5 →
    findByNameForest cs name found =
      ((nameMatchesForest cs name).take (5 - found),
        min (found + (nameMatchesForest cs name).length) 5)
  | [], name, found => by
      intro hf
      rw [findByNameForest]
      unfold nameMatchesForest
      rw [preorderForest]
      simp only [List.filter_nil, List.take_nil, List.length_nil,
        Prod.mk.injEq]
      exact ⟨trivial, by omega⟩

  | c :: cs, name, found => by
      intro hf
      rw [findByNameForest, nameMatchesForest_cons]
      have hc := findByNameRecursive_spec c name found hf
      rw [hc]
      have hf1 : min (found + (nameMatches c name).length) 5 ≤ 5 := by omega
      have hcs := findByNameForest_spec cs name _ hf1
      show ((nameMatches c name).take (5 - found) ++
          (findByNameForest cs name
            (min (found + (nameMatches c name).length) 5)).1,
        (findByNameForest cs name
          (min (found + (nameMatches c name).length) 5)).2) = _
      rw [hcs]
      simp only [Prod.mk.injEq]
      constructor
      · rw [List.take_append_eq_append_take]
        have hcount : 5 - min (found + (nameMatches c name).length) 5 =
            5 - found - (nameMatches c name).length := by omega
        rw [hcount]
      · rw [List.length_append]
        omega
end

/-- Boolean equality on `Ordering` agrees with equality. -/
theorem beqOrdering_iff {a b : Ordering} : (a == b) = true ↔ a = b := by
  cases a <;> cases b <;> decide

mutual
/-- `findNodeByCode` returns the first pre-order node whose code equals
the query, and nothing otherwise. -/
theorem findNodeByCode_eq_find :
    ∀ (t : TreeNode) (code : CStr),
    findNodeByCode t code =
      (preorderNodes t).find? fun nd => strcmp nd.data.code code ==
        Ordering.eq
  | .mk d cs, code => by
      rw [findNodeByCode, preorderNodes]
      by_cases h : strcmp d.code code = Ordering.eq
      · rw [if_pos h, List.find?_cons_of_pos]
        show (strcmp (TreeNode.mk d cs).data.code code ==
          Ordering.eq) = true
        simp only [TreeNode.data]
        exact beqOrdering_iff.mpr h
      · rw [if_neg h, List.find?_cons_of_neg]
        · exact findNodeByCodeForest_eq_find cs code
        · show ¬ (strcmp (TreeNode.mk d cs).data.code code ==
            Ordering.eq) = true
          simp only [TreeNode.data]
          exact fun hc => h (beqOrdering_iff.mp hc)

/-- Forest version of `findNodeByCode_eq_find`. -/
theorem findNodeByCodeForest_eq_find :
    ∀ (cs : List TreeNode) (code : CStr),
    findNodeByCodeForest cs code =
      (preorderForest cs).find? fun nd => strcmp nd.data.code code ==
        Ordering.eq
  | [], _ => rfl
  | c :: cs, code => by
      rw [findNodeByCodeForest, preorderForest, List.find?_append,
        ← findNodeByCode_eq_find c code,
        ← findNodeByCodeForest_eq_find cs code]
      cases findNodeByCode c code with
      | none => rfl
      | some fnd => rfl
end

/-- With pairwise-distinct codes, equal codes force equal indices. -/
theorem code_inj (regions : List Region)
    (hnd : (regions.map Region.code).Nodup) {i j : Nat}
    (hi : i < regions.length) (hj : j < regions.length)
    (hc : regions[i].code = regions[j].code) : i = j := by
  by_contra hne
  have hpair : (regions.map Region.code).Pairwise (· ≠ ·) := hnd
  have hget := List.pairwise_iff_getElem.mp hpair
  rcases Nat.lt_or_ge i j with hlt | hge
  · have := hget i j (by simpa using hi) (by simpa using hj) hlt
    rw [List.getElem_map, List.getElem_map] at this
    exact this hc
  · have hlt : j < i := by omega
    have := hget j i (by simpa using hj) (by simpa using hi) hlt
    rw [List.getElem_map, List.getElem_map] at this
    exact this hc.symm

/-- Children of the built tree are record indices. -/
theorem buildTree_children_lt (regions : List Region) {x y : Nat}
    (h : y ∈ (buildTree regions).children x) : y < regions.length :=
  buildCalls_child_lt regions ((buildTree_children_mem regions x y).mp h)

/-- Everything reachable from the synthetic root is one of the
`size + 1` nodes of the build. -/
theorem reach_le (regions : List Region) {x : Nat}
    (h : Reach (buildTree regions) regions.length x) :
    x ≤ regions.length := by
  rcases reach_cases h with rfl | ⟨p, hp⟩
  · exact le_refl _
  · exact le_of_lt (buildTree_children_lt regions hp)

/-- Under pairwise-distinct codes and parent chains that descend along
some ranking to the sentinel, every node of the build is reachable from
the synthetic root. -/
theorem reach_all (regions : List Region) (rank : Nat → Nat)
    (hnd : (regions.map Region.code).Nodup)
    (hwf : ∀ i, ∀ _ : i < regions.length,
      regions[i].parent_code = sentinel ∨
        ∃ j, ∃ _ : j < regions.length,
          regions[j].code = regions[i].parent_code ∧ rank j < rank i) :
    ∀ x, x ≤ regions.length →
      Reach (buildTree regions) regions.length x := by
  have key : ∀ k i, ∀ _ : i < regions.length, rank i < k →
      Reach (buildTree regions) regions.length i := by
    intro k
    induction k with
    | zero =>
        intro i hi hr
        omega
    | succ k ih =>
        intro i hi hr
        have hchild : ∀ p, parentOf (buildIndex regions) regions.length
            regions[i] = some p →
            i ∈ (buildTree regions).children p := by
          intro p hp
          exact (buildTree_children_mem regions p i).mpr
            ((buildCalls_mem regions p i).mpr ⟨hi, hp⟩)
        by_cases hsent : regions[i].parent_code = sentinel
        · have hmem := hchild _ (parentOf_sentinel _ _ _ hsent)
          exact Reach.step hmem (Reach.refl i)
        · rcases hwf i hi with hsent' | ⟨j, hj, hcode, hrank⟩
          · exact absurd hsent' hsent
          · have hbs : bsearch (buildIndex regions)
                regions[i].parent_code = some j :=
              bsearch_buildIndex_eq regions hnd _ j hj hcode
            have hpo := parentOf_not_sentinel (buildIndex regions)
              regions.length regions[i] hsent
            have hc := hchild j (by rw [hpo, hbs])
            exact (ih j hj (by omega)).snoc hc
  intro x hx
  rcases Nat.lt_or_ge x regions.length with hlt | hge
  · exact key (rank x + 1) x hlt (by omega)
  · have hxn : x = regions.length := by omega
    subst hxn
    exact Reach.refl _

/-- Claim C1 (amended): for an input whose codes are pairwise distinct
and whose parent chains descend along some ranking to the sentinel (the
acyclicity the original claim omits), the built tree contains exactly
`N + 1` nodes — the ids reachable from the synthetic root by child links
are precisely `0, ..., N` — so every record's node is reachable from the
root. -/
theorem c1_build_complete (regions : List Region) (rank : Nat → Nat)
    (hnd : (regions.map Region.code).Nodup)
    (hwf : ∀ i, ∀ _ : i < regions.length,
      regions[i].parent_code = sentinel ∨
        ∃ j, ∃ _ : j < regions.length,
          regions[j].code = regions[i].parent_code ∧ rank j < rank i) :
    ∀ x, Reach (buildTree regions) regions.length x ↔
      x < regions.length + 1 := by
  intro x
  constructor
  · intro h
    have := reach_le regions h
    omega
  · intro h
    exact reach_all regions rank hnd hwf x (by omega)

/-- Input of `c1_counterexample`: one record whose parent code is its own
code (a resolvable but cyclic parent reference). -/
def c1Regions : List Region :=
  [{ code := [49], name := [], level := 1, parent_code := [49], type := 0 }]

/-- Claim C1 as frozen is false: this input has unique codes and every
parent code is the code of some input record, yet the record's node is
not reachable from the synthetic root (the build attaches it to itself). -/
theorem c1_counterexample :
    (c1Regions.map Region.code).Nodup ∧
    c1Regions[0].parent_code = c1Regions[0].code ∧
    ¬ Reach (buildTree c1Regions) c1Regions.length 0 := by
  refine ⟨by decide, by decide, ?_⟩
  intro h
  cases h with
  | step hc hr =>
      have hempty : (buildTree c1Regions).children c1Regions.length = [] :=
        by decide
      rw [hempty] at hc
      cases hc

/-- Input of `c1_witness`: a two-record chain (province, prefecture). -/
def c1WRegions : List Region :=
  [{ code := [49, 49], name := [], level := 1, parent_code := [48],
     type := 0 },
   { code := [49, 49, 48, 49], name := [], level := 2,
     parent_code := [49, 49], type := 0 }]

/-- Witness for `c1_build_complete` on a concrete well-formed input. -/
theorem c1_witness :
    Reach (buildTree c1WRegions) c1WRegions.length 1 := by
  have h := c1_build_complete c1WRegions (fun i => i) (by decide)
    (by
      intro i hi
      have h01 : i = 0 ∨ i = 1 := by
        have hlen : c1WRegions.length = 2 := rfl
        omega
      rcases h01 with rfl | rfl
      · exact Or.inl rfl
      · exact Or.inr ⟨0, by decide, rfl, by decide⟩)
  exact (h 1).mpr (by decide)

/-- Claim C2: a record whose parent code is neither the sentinel nor the
code of any input record is attached to no parent — its parent pointer
stays null and its node is unreachable from the synthetic root — while
the build itself still completes and returns the root (`buildTree` is
total in this model; in the C source its only failure paths are
allocation failures). -/
theorem c2_orphan (regions : List Region) (i : Nat)
    (hi : i < regions.length)
    (hs : regions[i].parent_code ≠ sentinel)
    (habs : ∀ j, ∀ _ : j < regions.length,
      regions[j].code ≠ regions[i].parent_code) :
    (buildTree regions).parent i = none ∧
      ¬ Reach (buildTree regions) regions.length i := by
  have hnone : parentOf (buildIndex regions) regions.length regions[i] =
      none := by
    rw [parentOf_not_sentinel _ _ _ hs]
    exact bsearch_buildIndex_none regions _ habs
  have hnocall : ∀ p, (p, i) ∉ buildCalls regions := by
    intro p hp
    rcases (buildCalls_mem regions p i).mp hp with ⟨hlt, hpo⟩
    rw [hnone] at hpo
    cases hpo
  constructor
  · cases hpar : (buildTree regions).parent i with
    | none => rfl
    | some p =>
        exact absurd ((buildTree_parent_some regions i p).mp hpar)
          (hnocall p)
  · intro hr
    rcases reach_cases hr with heq | ⟨x, hx⟩
    · omega
    · exact hnocall x ((buildTree_children_mem regions x i).mp hx)

/-- Input of `c2_witness`: one record with the unresolvable parent code
`"9"`. -/
def c2Regions : List Region :=
  [{ code := [49], name := [], level := 1, parent_code := [57],
     type := 0 }]

/-- Witness for `c2_orphan` on a concrete orphan record. -/
theorem c2_witness :
    (buildTree c2Regions).parent 0 = none ∧
      ¬ Reach (buildTree c2Regions) c2Regions.length 0 :=
  c2_orphan c2Regions 0 (by decide) (by decide)
    (by
      intro j hj
      have hj0 : j = 0 := by
        have hlen : c2Regions.length = 1 := rfl
        omega
      subst hj0
      have hne : ¬ (([49] : List Nat) = [57]) := by decide
      exact fun hc => hne hc)

/-- Claim C3: a node returned by `findNodeByCode` carries exactly the
queried code, and the search returns null precisely when no node of the
tree (all of which are reachable from the root it is given) carries the
code. -/
theorem c3_code_lookup (t : TreeNode) (code : CStr) :
    (∀ nd, findNodeByCode t code = some nd → nd.data.code = code) ∧
      (findNodeByCode t code = none ↔
        ∀ nd, nd ∈ preorderNodes t → nd.data.code ≠ code) := by
  rw [findNodeByCode_eq_find]
  constructor
  · intro nd h
    have hp := List.find?_some h
    exact strcmp_eq_iff.mp (beqOrdering_iff.mp hp)
  · rw [List.find?_eq_none]
    constructor
    · intro h nd hmem hc
      have := h nd hmem
      exact this (beqOrdering_iff.mpr (strcmp_eq_iff.mpr hc))
    · intro h nd hmem hp
      exact h nd hmem (strcmp_eq_iff.mp (beqOrdering_iff.mp hp))

/-- Nodes of the tree used by `c3_witness`. -/
def c3rA : Region :=
  { code := [49], name := [65], level := 1, parent_code := [48],
    type := 0 }

/-- Second node of the tree used by `c3_witness`. -/
def c3rB : Region :=
  { code := [50], name := [66], level := 2, parent_code := [49],
    type := 0 }

/-- Tree used by `c3_witness`. -/
def c3Tree : TreeNode := .mk c3rA [.mk c3rB []]

/-- Witness for `c3_code_lookup`: the node found for code `"2"` carries
code `"2"`. -/
theorem c3_witness : (TreeNode.mk c3rB []).data.code = [50] :=
  (c3_code_lookup c3Tree [50]).1 (TreeNode.mk c3rB []) rfl

/-- Claim C4: the name search returns exactly the first five matches of
the depth-first pre-order traversal — so every returned node's name
contains the pattern (the list is a prefix of the pre-order filter),
results come in traversal-encounter order, at most five are returned,
and the counter handed back stops at the cap because the traversal stops
there (a completed traversal would count all matches). -/
theorem c4_name_lookup (t : TreeNode) (name : CStr) :
    findByName t name =
      ((nameMatches t name).take 5, min (nameMatches t name).length 5) := by
  unfold findByName
  rw [findByNameRecursive_spec t name 0 (by omega)]
  simp

/-- Claim C5 (amended): the reported chains walk parent back-references
upward in child-to-root order, but the latest variant's `findByCode` loop
starts at the found node's parent and runs up to and including the
synthetic root, while `displayNodeInfo`'s loop starts at the node itself
and stops short of the root.  For a node whose proper-ancestor list
(child-to-root) is `l`, any fuel beyond the node's depth gives the loops'
exact outputs. -/
theorem c5_chain (regions : List Region) (x : Nat) (l : List Nat)
    (fuel : Nat) (h : RootPath (buildTree regions) regions.length x l)
    (hf : l.length < fuel) :
    ancChain (buildTree regions) fuel x = l ∧
      displayChain (buildTree regions) fuel x = (x :: l).dropLast :=
  rootPath_chains regions h fuel hf

/-- Input of the C5 theorems: the spec's own example, a province under
the synthetic root and a prefecture under the province. -/
def c5Regions : List Region :=
  [{ code := [49, 49], name := [], level := 1, parent_code := [48],
     type := 0 },
   { code := [49, 49, 48, 49], name := [], level := 2,
     parent_code := [49, 49], type := 0 }]

/-- Claim C5 as frozen is false: the latest variant's ancestor walk from
the prefecture node (node 1) emits `[0, 2]` — the province and then node
2, which is the synthetic root itself — contradicting "up to but not
including the synthetic root". -/
theorem c5_counterexample :
    ancChain (buildTree c5Regions) 10 1 = [0, 2] ∧
      c5Regions.length ∈ ancChain (buildTree c5Regions) 10 1 := by
  constructor
  · decide
  · decide

/-- Witness for `c5_chain` on the concrete two-level input. -/
theorem c5_witness :
    ancChain (buildTree c5Regions) 10 1 = [0, 2] ∧
      displayChain (buildTree c5Regions) 10 1 = [1, 0] :=
  c5_chain c5Regions 1 [0, 2] 10
    (RootPath.step (RootPath.step RootPath.base (by decide)) (by decide))
    (by decide)

/-- Claim C6 (amended): the ancestor walk from a reachable node
terminates after exactly as many steps as the node has proper ancestors
(its depth — not the stored `level` field, which the builder never
checks), and for every node other than the root itself the walk ends at
the synthetic root (not one level below it). -/
theorem c6_chain_bound (regions : List Region) (x : Nat) (l : List Nat)
    (fuel : Nat) (h : RootPath (buildTree regions) regions.length x l)
    (hf : l.length < fuel) :
    (ancChain (buildTree regions) fuel x).length = l.length ∧
      (x ≠ regions.length →
        (ancChain (buildTree regions) fuel x).getLast? =
          some regions.length) := by
  have hc := rootPath_chains regions h fuel hf
  constructor
  · rw [hc.1]
  · intro hx
    rw [hc.1]
    rcases rootPath_last h with ⟨hl, hxn⟩ | hlast
    · exact absurd hxn hx
    · exact hlast

/-- Input of the C6 theorems: a level-0 record sitting two child links
below the synthetic root. -/
def c6Regions : List Region :=
  [{ code := [49], name := [], level := 1, parent_code := [48],
     type := 0 },
   { code := [50], name := [], level := 0, parent_code := [49],
     type := 0 }]

/-- Claim C6 as frozen is false: node 1 is reachable from the root (it
is a child of node 0, itself a child of the root, node 2), its stored
level is 0, yet its ancestor walk takes 2 steps — more than `level` —
and it ends at the synthetic root rather than one level below it. -/
theorem c6_counterexample :
    0 ∈ (buildTree c6Regions).children c6Regions.length ∧
      1 ∈ (buildTree c6Regions).children 0 ∧
      c6Regions[1].level = 0 ∧
      (ancChain (buildTree c6Regions) 10 1).length = 2 ∧
      ¬ ((ancChain (buildTree c6Regions) 10 1).length ≤
          c6Regions[1].level.toNat) := by
  refine ⟨by decide, by decide, by decide, by decide, by decide⟩

/-- Witness for `c6_chain_bound` on the concrete two-level input. -/
theorem c6_witness :
    (ancChain (buildTree c6Regions) 10 1).length = 2 ∧
      (ancChain (buildTree c6Regions) 10 1).getLast? =
        some c6Regions.length := by
  have h := c6_chain_bound c6Regions 1 [0, 2] 10
    (RootPath.step (RootPath.step RootPath.base (by decide)) (by decide))
    (by decide)
  exact ⟨h.1, h.2 (by decide)⟩

/-- Claim C7: with pairwise-distinct codes, resolving any parent code by
binary search over the code-sorted index (the latest variant's builder)
gives the same node — or the same absence of one — as the earlier
variant's first-match linear scan over all records. -/
theorem c7_resolve_equiv (regions : List Region)
    (hnd : (regions.map Region.code).Nodup) (pc : CStr) :
    indexResolve regions pc = linearResolve regions pc := by
  unfold indexResolve
  by_cases hex : ∃ j, ∃ _ : j < regions.length, regions[j].code = pc
  · rcases hex with ⟨j, hj, hcode⟩
    rw [bsearch_buildIndex_eq regions hnd pc j hj hcode]
    unfold linearResolve
    have hfind : ((enumF 0 regions).find? fun p =>
        strcmp pc p.2.code == Ordering.eq).isSome := by
      rw [List.find?_isSome]
      refine ⟨(0 + j, regions[j]),
        (enumF_mem 0 regions _).mpr ⟨j, hj, rfl⟩, ?_⟩
      exact beqOrdering_iff.mpr (strcmp_eq_iff.mpr hcode.symm)
    rcases Option.isSome_iff_exists.mp hfind with ⟨q, hq⟩
    rw [hq]
    have hqpred := List.find?_some hq
    have hqmem := List.mem_of_find?_eq_some hq
    rcases (enumF_mem 0 regions q).mp hqmem with ⟨j', hj', rfl⟩
    have hqcode : regions[j'].code = pc :=
      (strcmp_eq_iff.mp (beqOrdering_iff.mp hqpred)).symm
    have hj'j : j' = j := code_inj regions hnd hj' hj
      (by rw [hqcode, hcode])
    simp [hj'j]
  · have habs : ∀ j, ∀ _ : j < regions.length, regions[j].code ≠ pc := by
      intro j hj hc
      exact hex ⟨j, hj, hc⟩
    rw [bsearch_buildIndex_none regions pc habs]
    unfold linearResolve
    have hnonef : ((enumF 0 regions).find? fun p =>
        strcmp pc p.2.code == Ordering.eq) = none := by
      rw [List.find?_eq_none]
      intro q hq hpred
      rcases (enumF_mem 0 regions q).mp hq with ⟨j, hj, rfl⟩
      exact habs j hj (strcmp_eq_iff.mp (beqOrdering_iff.mp hpred)).symm
    rw [hnonef]
    rfl

/-- Input of `c7_witness`. -/
def c7Regions : List Region :=
  [{ code := [49, 49], name := [], level := 1, parent_code := [48],
     type := 0 },
   { code := [49, 49, 48, 49], name := [], level := 2,
     parent_code := [49, 49], type := 0 }]

/-- Witness for `c7_resolve_equiv`: both resolutions agree (on the
province code, both find record 0). -/
theorem c7_witness :
    indexResolve c7Regions [49, 49] = linearResolve c7Regions [49, 49] ∧
      linearResolve c7Regions [49, 49] = some 0 :=
  ⟨c7_resolve_equiv c7Regions (by decide) [49, 49], by decide⟩

/-- Claim C8 (amended): during a build with pairwise-distinct codes, no
node is ever passed as the child argument of `addChild` more than once
(the recorded child arguments are pairwise distinct), a node's parent
pointer is exactly its unique recorded assignment, a parent pointer set
after any prefix of the build's calls is never overwritten by the rest,
and a record's node ends up with a parent exactly when its parent code is
the sentinel or the code of some record — orphans keep a null parent, so
"exactly one parent" holds for attached nodes and fails only for
orphans. -/
theorem c8_single_parent (regions : List Region)
    (hnd : (regions.map Region.code).Nodup) :
    ((buildCalls regions).map Prod.snd).Nodup ∧
    (∀ y p, (buildTree regions).parent y = some p ↔
      (p, y) ∈ buildCalls regions) ∧
    (∀ L1 L2, buildCalls regions = L1 ++ L2 →
      ∀ y p, (applyCalls L1 initState).parent y = some p →
        (buildTree regions).parent y = some p) ∧
    (∀ i, ∀ _ : i < regions.length,
      ((buildTree regions).parent i).isSome ↔
        (regions[i].parent_code = sentinel ∨
          ∃ j, ∃ _ : j < regions.length,
            regions[j].code = regions[i].parent_code)) := by
  refine ⟨buildCalls_snd_nodup regions,
    fun y p => buildTree_parent_some regions y p, ?_, ?_⟩
  · intro L1 L2 hsplit y p hp
    have hnd1 : (L1.map Prod.snd).Nodup := by
      have := buildCalls_snd_nodup regions
      rw [hsplit, List.map_append] at this
      exact this.of_append_left
    rcases (applyCalls_parent L1 hnd1 initState y p).mp hp with
      hin | ⟨hinit, -⟩
    · refine (buildTree_parent_some regions y p).mpr ?_
      rw [hsplit]
      exact List.mem_append_left L2 hin
    · simp [initState] at hinit
  · intro i hi
    constructor
    · intro hsome
      rcases Option.isSome_iff_exists.mp hsome with ⟨p, hp⟩
      rcases (buildCalls_mem regions p i).mp
        ((buildTree_parent_some regions i p).mp hp) with ⟨hlt, hpo⟩
      by_cases hs : regions[i].parent_code = sentinel
      · exact Or.inl hs
      · right
        rw [parentOf_not_sentinel _ _ _ hs] at hpo
        rcases (buildIndex_mem regions _ p).mp
          (bsearch_mem _ _ p hpo) with ⟨hp', hc⟩
        exact ⟨p, hp', hc⟩
    · intro hres
      have hpo : ∃ p, parentOf (buildIndex regions) regions.length
          regions[i] = some p := by
        by_cases hs : regions[i].parent_code = sentinel
        · exact ⟨regions.length, parentOf_sentinel _ _ _ hs⟩
        · rcases hres with hs' | ⟨j, hj, hc⟩
          · exact absurd hs' hs
          · refine ⟨j, ?_⟩
            rw [parentOf_not_sentinel _ _ _ hs,
              bsearch_buildIndex_eq regions hnd _ j hj hc]
      rcases hpo with ⟨p, hp⟩
      have := (buildTree_parent_some regions i p).mpr
        ((buildCalls_mem regions p i).mpr ⟨hi, hp⟩)
      rw [this]
      rfl

/-- Input of `c8_counterexample`: one orphan record. -/
def c8Regions : List Region :=
  [{ code := [49], name := [], level := 1, parent_code := [57],
     type := 0 }]

/-- Claim C8 as frozen is false in its "exactly one parent" part: this
orphan's node is not the root, yet it ends the build with no parent at
all. -/
theorem c8_counterexample :
    (buildTree c8Regions).parent 0 = none ∧ 0 ≠ c8Regions.length := by
  exact ⟨by decide, by decide⟩

/-- Input of `c8_witness`. -/
def c8WRegions : List Region :=
  [{ code := [49], name := [], level := 1, parent_code := [48],
     type := 0 }]

/-- Witness for `c8_single_parent` on a one-record input. -/
theorem c8_witness :
    ((buildCalls c8WRegions).map Prod.snd).Nodup ∧
      ((buildTree c8WRegions).parent 0 = some c8WRegions.length ↔
        (c8WRegions.length, 0) ∈ buildCalls c8WRegions) :=
  ⟨(c8_single_parent c8WRegions (by decide)).1,
    (c8_single_parent c8WRegions (by decide)).2.1 0 c8WRegions.length⟩

/-- Claim C9 (amended): the count handed to the caller by the name
search is the number of matches it actually emitted, namely the total
number of matching reachable nodes capped at 5 — not the total before
truncation. -/
theorem c9_count_capped (t : TreeNode) (name : CStr) :
    (findByName t name).2 = min (nameMatches t name).length 5 := by
  unfold findByName
  rw [findByNameRecursive_spec t name 0 (by omega)]
  simp

/-- A region whose name is `"A"`, code parametrised to keep codes
distinct. -/
def c9Leaf (c : Nat) : Region :=
  { code := [c], name := [65], level := 2, parent_code := [49],
    type := 0 }

/-- Tree of `c9_counterexample`: the build result of a star input — the
synthetic root over one province node (name `"A"`) with five children
all named `"A"`: six matching nodes in total. -/
def c9Tree : TreeNode :=
  .mk chinaRegion
    [.mk { code := [49], name := [65], level := 1, parent_code := [48],
           type := 0 }
      [.mk (c9Leaf 50) [], .mk (c9Leaf 51) [], .mk (c9Leaf 52) [],
        .mk (c9Leaf 53) [], .mk (c9Leaf 54) []]]

/-- Claim C9 as frozen is false: with six matching nodes the caller is
told `5`, not the pre-truncation total `6`. -/
theorem c9_counterexample :
    (findByName c9Tree [65]).2 = 5 ∧
      (nameMatches c9Tree [65]).length = 6 ∧
      (findByName c9Tree [65]).2 ≠ (nameMatches c9Tree [65]).length := by
  refine ⟨by decide, by decide, by decide⟩

/-- Claim C10: the refactored `findByCode` refuses every query that is
not exactly twelve decimal digits — it reports the invalid-format result
without searching — so a stored code of any other length can never be
returned through this entry point. -/
theorem c10_validate_gate (root : TreeNode) (code : CStr)
    (h : code.length ≠ 12 ∨ ¬ (code.all isDigitB = true)) :
    findByCodeChecked root code = FindResult.invalid := by
  have hv : validateCode code ≠ 0 := by
    unfold validateCode
    rcases h with h | h
    · rw [if_pos h]
      decide
    · by_cases hl : code.length ≠ 12
      · rw [if_pos hl]
        decide
      · rw [if_neg hl, if_neg h]
        decide
  unfold findByCodeChecked
  rw [if_pos hv]

/-- Tree of `c10_witness`: contains a node whose stored code is the
two-digit province code `"11"`. -/
def c10Tree : TreeNode :=
  .mk chinaRegion
    [.mk { code := [49, 49], name := [65], level := 1,
           parent_code := [48], type := 0 } []]

/-- Witness for `c10_validate_gate`: code `"11"` is present in the tree
(the plain tree search finds it), yet the checked entry point reports
invalid format. -/
theorem c10_witness :
    (findNodeByCode c10Tree [49, 49]).isSome = true ∧
      findByCodeChecked c10Tree [49, 49] = FindResult.invalid :=
  ⟨rfl, c10_validate_gate c10Tree [49, 49] (Or.inl (by decide))⟩
